import Mathlib

/-!
Verification development for the `claimtrie` orchestrator of LBRYFoundation/lbcd
(`claimtrie/claimtrie.go`).

The orchestrator (`ClaimTrie`) drives four collaborators: a node manager, a
temporal repository, a block-hash repository and a Merkle trie.  Only the
orchestrator source is available; the collaborators are modelled in two ways:

* a *scripted* environment (`Script`): each collaborator call returns a value
  chosen by an arbitrary script, and effectful calls are logged into a trace.
  This embeds the orchestrator's control flow faithfully, line by line, and is
  used for claims about error propagation, call patterns and state framing;

* a *concrete* model, modelled from the spec, of the node state machine,
  temporal index and a root that is a pure function of the change log
  (the spec invariant states the Merkle root is a pure function of the
  change log truncated at the current height and the fork height constant).
  This is used for determinism, round-trip and temporal-index claims.

Machine integers (Go `int32`, `int64`) are modelled as `Int`; the claims under
study do not involve overflow.  Hashes are modelled as injective encodings of
the data they commit to (a collision-free idealization).
-/

namespace LbcdClaimTrie

/-- Names are arbitrary byte strings; a byte is a `Nat` (values < 256 in Go). -/
abbrev Name := List Nat

/-- Model of `bytes.Compare(a, b) < 0`: strict lexicographic order on byte
strings, shorter strings preceding their extensions. -/
def lexLt : Name → Name → Bool
  | [], [] => false
  | [], _ :: _ => true
  | _ :: _, [] => false
  | a :: as, b :: bs => if a < b then true else if b < a then false else lexLt as bs

/-- Model of `bytes.Compare(a, b) <= 0`. -/
def lexLe (x y : Name) : Bool := !(lexLt y x)

/-- The order relation used to sort names, as a `Prop`. -/
def nameLe (a b : Name) : Prop := lexLe a b = true

instance : DecidableRel nameLe := fun a b => by
  unfold nameLe; infer_instance

/-- Insert a name into a list, before the first element it compares
less-or-equal to. -/
def insertName (x : Name) : List Name → List Name
  | [] => [x]
  | y :: ys => if lexLe x y then x :: y :: ys else y :: insertName x ys

/-- Insertion sort of names in ascending `bytes.Compare` order.  Equal byte
strings are indistinguishable, so every correct sorting algorithm (Go uses
`sort.Slice`) produces this same list. -/
def sortNames : List Name → List Name
  | [] => []
  | x :: xs => insertName x (sortNames xs)

/-- Adjacent deduplication of an already-sorted list.  This is the result of
the backward scan in `removeDuplicates` (Go lines 282-286), which removes the
earlier element of each adjacent equal pair, keeping the later one. -/
def dedupAdj : List Name → List Name
  | [] => []
  | [a] => [a]
  | a :: b :: rest => if a = b then dedupAdj (b :: rest) else a :: dedupAdj (b :: rest)

/-- Model of `removeDuplicates` (Go lines 277-288): sort the names in ascending
byte order (`sort.Slice` with `bytes.Compare < 0`), then drop adjacent equal
entries. -/
def removeDuplicates (names : List Name) : List Name :=
  dedupAdj (sortNames names)

/-! ## Shared data types -/

/-- Model of `wire.OutPoint`: 32-byte transaction hash plus `uint32` index. -/
structure OutPt where
  txid : List Nat
  idx : Nat
deriving DecidableEq

/-- Claim identifiers (`change.ClaimID`, 20 bytes). -/
abbrev ClaimID := List Nat

/-- The five change types of `change.ChangeType` used by the orchestrator. -/
inductive ChangeType
  | addClaim
  | updateClaim
  | spendClaim
  | addSupport
  | spendSupport
deriving DecidableEq

/-- Model of `change.Change` as the orchestrator populates it: the five
submitters fill `Type`, `Name`, `OutPoint`, `ClaimID` and (except for the
spend operations, which leave it at the zero value) `Amount`;
`forwardNodeChange` then sets the height field. -/
structure Change where
  ty : ChangeType
  name : Name
  outPoint : OutPt
  claimID : ClaimID
  amount : Int := 0
  height : Int := 0
deriving DecidableEq

/-- Errors surfaced by collaborator calls (`.kv`) and by the orchestrator's
root-consistency checks (`.badRoot`), which model
`errors.Errorf("unable to restore ...")`.  `errors.Wrap` only decorates the
message, so propagation is modelled as the identity. -/
inductive Err
  | kv (n : Nat)
  | badRoot (h : Int)
deriving DecidableEq

/-! ## Scripted environment model

Each collaborator call made by the orchestrator returns whatever an arbitrary
`Script` dictates; calls that mutate a collaborator, or whose argument a claim
speaks about, are recorded as events.  The orchestrator functions below are
line-by-line transcriptions of `claimtrie.go`. -/

/-- Abstract Merkle root values returned by the trie in the scripted model. -/
abbrev HashV := Nat

/-- Responses of the collaborators (node manager, temporal repo, block repo,
trie) for one orchestrator call, chosen arbitrarily. -/
structure Script where
  incRes : Int → Except Err (List Name)
  nodesAtRes : Int → Except Err (List Name)
  nextUp : Name → Name × Int
  iterNames : List Name
  setNodesRes : Except Err Unit
  getRes : Int → Except Err HashV
  setRes : Except Err Unit
  decRes : Except Err Unit
  appendRes : Except Err Unit
  hashVal : HashV
  hashAllVal : HashV

/-- Events recorded for collaborator calls made by the orchestrator. -/
inductive Ev
  | decCall (names : List Name) (h : Int)
  | trieUpdate (n : Name) (recompute : Bool)
  | setRoot (h : HashV) (names : Option (List Name))
  | setNodes (names : List Name) (hs : List Int)
  | blockSet (h : Int) (hv : HashV)
  | appendChange (c : Change)
deriving DecidableEq

/-- Orchestrator state in the scripted model: the `height` field of the
`ClaimTrie` struct plus the trace of collaborator calls issued so far. -/
structure CTS where
  height : Int
  trace : List Ev
deriving DecidableEq

/-- Consensus parameters (`claimtrie/param`); per-network values, kept
abstract.  Defaults for the divisor and maximum delay are the consensus
constants named in the spec. -/
structure Params where
  originalExp : Int
  extendedExp : Int
  extendedExpFork : Int
  allClaimsFork : Int
  activationDivisor : Int := 32
  maxDelay : Int := 4032

/-- Model of `ClaimTrie.MerkleHash` (Go lines 325-330): select the post-fork
hash scheme exactly when the height is at or past `AllClaimsInMerkleForkHeight`. -/
def merkleHashS (s : Script) (p : Params) (h : Int) : HashV :=
  if h ≥ p.allClaimsFork then s.hashAllVal else s.hashVal

/-- The deduplicated list of names processed by the main loop of `AppendBlock`
(Go lines 221-230): `removeDuplicates(removeDuplicates(names) ++ expirations)`. -/
def processedNames (ns exps : List Name) : List Name :=
  removeDuplicates (removeDuplicates ns ++ exps)

/-- The fork sweep (`updateTrieForHashForkIfNecessary`, Go lines 260-275):
`trie.Update(name, false)` for every name the node manager iterates. -/
def sweepEvents (s : Script) : List Ev :=
  s.iterNames.map (fun n => Ev.trieUpdate n false)

/-- The (canonical-name, next-update-height) pairs collected by the main loop
of `AppendBlock` (Go lines 236-241): pairs with non-positive next update are
skipped. -/
def scheduleOf (s : Script) (names : List Name) : List (Name × Int) :=
  names.filterMap (fun n =>
    let r := s.nextUp n
    if r.2 > 0 then some r else none)

/-- Model of `ClaimTrie.AppendBlock` (Go lines 207-258) in the scripted
environment.  Returns the post-call state (field mutations performed before a
failing call persist, as for a Go method on a pointer receiver) together with
the returned error, if any. -/
def appendBlockS (s : Script) (p : Params) (ct : CTS) : CTS × Except Err Unit :=
  let h := ct.height + 1
  let ct1 : CTS := { ct with height := h }
  match s.incRes h with
  | .error e => (ct1, .error e)
  | .ok ns =>
    match s.nodesAtRes h with
    | .error e => (ct1, .error e)
    | .ok exps =>
      let names1 := removeDuplicates ns
      let names2 := processedNames ns exps
      let ct2 := { ct1 with trace := ct1.trace ++ names2.map (fun n => Ev.trieUpdate n true) }
      let sched := scheduleOf s names2
      let updNames := names1 ++ sched.map Prod.fst
      let updHeights := names1.map (fun _ => h) ++ sched.map Prod.snd
      match s.setNodesRes with
      | .error e => (ct2, .error e)
      | .ok _ =>
        let ct3 := { ct2 with trace := ct2.trace ++ [Ev.setNodes updNames updHeights] }
        let ct4 := if h = p.allClaimsFork then
            { ct3 with trace := ct3.trace ++ sweepEvents s } else ct3
        let hv := merkleHashS s p h
        let ct5 := { ct4 with trace := ct4.trace ++ [Ev.blockSet h hv] }
        let ct6 := if h = p.allClaimsFork then
            { ct5 with trace := ct5.trace ++ [Ev.setRoot hv (some names2)] } else ct5
        (ct6, .ok ())

/-- The trace of the main loop of `AppendBlock`: one `trie.Update(name, true)`
per processed name. -/
def mainLoopEvents (ns exps : List Name) : List Ev :=
  (processedNames ns exps).map (fun n => Ev.trieUpdate n true)

/-- The single `temporalRepo.SetNodesAt` call of `AppendBlock`: the touched
names paired with the new height, followed by the collected schedule. -/
def batchEvent (s : Script) (h : Int) (ns exps : List Name) : Ev :=
  Ev.setNodes (removeDuplicates ns ++ (scheduleOf s (processedNames ns exps)).map Prod.fst)
    ((removeDuplicates ns).map (fun _ => h) ++ (scheduleOf s (processedNames ns exps)).map Prod.snd)

/-- The ascending list of heights `lo+1, ..., hi` visited by the rewind loop of
`ResetHeight` (Go line 294). -/
def heightsIn (lo hi : Int) : List Int :=
  (List.range (hi - lo).toNat).map (fun i => lo + 1 + Int.ofNat i)

/-- The loop of `ResetHeight` collecting `temporalRepo.NodesAt(h)` for each
height in `(lo, hi]`, aborting on the first error (Go lines 293-300). -/
def collectNamesAt (s : Script) (lo hi : Int) : Except Err (List Name) :=
  (heightsIn lo hi).foldlM (fun acc h => (s.nodesAtRes h).map (fun l => acc ++ l)) []

/-- Model of `ClaimTrie.ResetHeight` (Go lines 291-322) in the scripted
environment. -/
def resetHeightS (s : Script) (p : Params) (ct : CTS) (target : Int) :
    CTS × Except Err Unit :=
  match collectNamesAt s target ct.height with
  | .error e => (ct, .error e)
  | .ok names =>
    match s.decRes with
    | .error e => (ct, .error e)
    | .ok _ =>
      let ct1 := { ct with trace := ct.trace ++ [Ev.decCall names target] }
      let pf : Bool := ct.height ≥ p.allClaimsFork ∧ target < p.allClaimsFork
      let ct2 := { ct1 with height := target }
      match s.getRes target with
      | .error e => (ct2, .error e)
      | .ok hv =>
        let arg := if pf then none else some names
        let ct3 := { ct2 with trace := ct2.trace ++ [Ev.setRoot hv arg] }
        if merkleHashS s p target = hv then (ct3, .ok ())
        else (ct3, .error (.badRoot target))

/-- Model of the restore phase of `New` (Go lines 97-135): given the height
loaded from the block repo, replay and verify the root when it is positive. -/
def newRestoreS (s : Script) (p : Params) (prevHeight : Int) : Except Err CTS :=
  if prevHeight > 0 then
    match s.getRes prevHeight with
    | .error e => .error e
    | .ok hv =>
      match s.incRes prevHeight with
      | .error e => .error e
      | .ok _ =>
        if merkleHashS s p prevHeight = hv then
          .ok { height := prevHeight, trace := [Ev.setRoot hv none] }
        else .error (.badRoot prevHeight)
  else .ok { height := prevHeight, trace := [] }

/-- Model of `forwardNodeChange` (Go lines 350-360): stamp the change with
`height + 1` and hand it to the node manager. -/
def forwardNodeChangeS (s : Script) (ct : CTS) (chg : Change) : CTS × Except Err Unit :=
  let chg1 := { chg with height := ct.height + 1 }
  let ct1 := { ct with trace := ct.trace ++ [Ev.appendChange chg1] }
  match s.appendRes with
  | .error e => (ct1, .error e)
  | .ok _ => (ct1, .ok ())

/-- Model of `ClaimTrie.AddClaim` (Go lines 139-150). -/
def addClaimS (s : Script) (ct : CTS) (n : Name) (op : OutPt) (id : ClaimID) (amt : Int) :
    CTS × Except Err Unit :=
  forwardNodeChangeS s ct { ty := .addClaim, name := n, outPoint := op, claimID := id, amount := amt }

/-- Model of `ClaimTrie.UpdateClaim` (Go lines 152-164). -/
def updateClaimS (s : Script) (ct : CTS) (n : Name) (op : OutPt) (amt : Int) (id : ClaimID) :
    CTS × Except Err Unit :=
  forwardNodeChangeS s ct { ty := .updateClaim, name := n, outPoint := op, claimID := id, amount := amt }

/-- Model of `ClaimTrie.SpendClaim` (Go lines 166-177). -/
def spendClaimS (s : Script) (ct : CTS) (n : Name) (op : OutPt) (id : ClaimID) :
    CTS × Except Err Unit :=
  forwardNodeChangeS s ct { ty := .spendClaim, name := n, outPoint := op, claimID := id }

/-- Model of `ClaimTrie.AddSupport` (Go lines 179-191). -/
def addSupportS (s : Script) (ct : CTS) (n : Name) (op : OutPt) (amt : Int) (id : ClaimID) :
    CTS × Except Err Unit :=
  forwardNodeChangeS s ct { ty := .addSupport, name := n, outPoint := op, claimID := id, amount := amt }

/-- Model of `ClaimTrie.SpendSupport` (Go lines 193-204). -/
def spendSupportS (s : Script) (ct : CTS) (n : Name) (op : OutPt) (id : ClaimID) :
    CTS × Except Err Unit :=
  forwardNodeChangeS s ct { ty := .spendSupport, name := n, outPoint := op, claimID := id }

/-! ## Concrete model

Modelled from the spec: the node state machine (spec sect. 4.3), the node
manager (sect. 4.4, pre-normalization, so canonical names are the names
themselves), the temporal repo (sect. 4.2) and the block repo, none of whose
sources are available.  The Merkle trie is modelled through the spec invariant
that the root is a pure function of the change log truncated at the current
height, so trie calls need no state here; hashes are injective encodings. -/

/-- A claim as reconstructed by the node state machine. -/
structure ClaimRec where
  claimID : ClaimID
  outPoint : OutPt
  amount : Int
  accepted : Int
  active : Int
deriving DecidableEq

/-- A support as reconstructed by the node state machine. -/
structure SupportRec where
  claimID : ClaimID
  outPoint : OutPt
  amount : Int
  accepted : Int
  active : Int
deriving DecidableEq

/-- Modelled from the spec: derived node state for one name at one height. -/
structure NodeState where
  claims : List ClaimRec
  supports : List SupportRec
  controllerID : Option ClaimID
  takeover : Int
deriving DecidableEq

/-- The state of a name that never saw a change. -/
def emptyNode : NodeState := ⟨[], [], none, 0⟩

/-- Modelled from the spec: expiration span by accepted height (original value
before the extended-expiration fork, extended after). -/
def expirationAt (p : Params) (accepted : Int) : Int :=
  if accepted < p.extendedExpFork then p.originalExp else p.extendedExp

/-- Int at which a claim expires. -/
def claimExpires (p : Params) (c : ClaimRec) : Int :=
  c.accepted + expirationAt p c.accepted

/-- Int at which a support expires. -/
def supExpires (p : Params) (su : SupportRec) : Int :=
  su.accepted + expirationAt p su.accepted

/-- A claim participates in bidding at `H` when activated and not expired. -/
def claimActiveAt (p : Params) (H : Int) (c : ClaimRec) : Bool :=
  decide (c.active ≤ H) && decide (H < claimExpires p c)

/-- A support counts at `H` when activated and not expired. -/
def supActiveAt (p : Params) (H : Int) (su : SupportRec) : Bool :=
  decide (su.active ≤ H) && decide (H < supExpires p su)

/-- Modelled from the spec: effective amount of a claim at height `H` is its
own amount plus the amounts of its active supports. -/
def effAmt (p : Params) (H : Int) (st : NodeState) (c : ClaimRec) : Int :=
  c.amount +
    ((st.supports.filter (fun su => decide (su.claimID = c.claimID) && supActiveAt p H su)).map
      (fun su => su.amount)).sum

/-- Lexicographically smaller outpoint: txid bytes, then output index. -/
def outPtLt (a b : OutPt) : Bool :=
  lexLt a.txid b.txid || (decide (a.txid = b.txid) && decide (a.idx < b.idx))

/-- Modelled from the spec: bid ordering among active claims, strictly greater
effective amount first, ties by earlier accepted height then smaller outpoint. -/
def bidBeats (p : Params) (H : Int) (st : NodeState) (a b : ClaimRec) : Bool :=
  let ea := effAmt p H st a
  let eb := effAmt p H st b
  decide (eb < ea) ||
    (decide (ea = eb) && (decide (a.accepted < b.accepted) ||
      (decide (a.accepted = b.accepted) && outPtLt a.outPoint b.outPoint)))

/-- The highest-bidding active claim at height `H`, if any. -/
def bidWinner (p : Params) (H : Int) (st : NodeState) : Option ClaimRec :=
  (st.claims.filter (claimActiveAt p H)).foldl
    (fun best c =>
      match best with
      | none => some c
      | some b => if bidBeats p H st c b then some c else some b)
    none

/-- Modelled from the spec: activation delay of a new claim or support whose
amount would displace the current controller; zero when no controller exists
or the amount does not displace it. -/
def computeDelay (p : Params) (H : Int) (st : NodeState) (amt : Int) : Int :=
  match st.controllerID with
  | none => 0
  | some cid =>
    match st.claims.find? (fun c => decide (c.claimID = cid)) with
    | none => 0
    | some ctrl =>
      if effAmt p H st ctrl < amt then
        min p.maxDelay ((H - st.takeover) / p.activationDivisor)
      else 0

/-- Modelled from the spec: apply one change at height `H` to a node state.
`UpdateClaim` spends the same-id claim and re-adds one inheriting its accepted
height; the spend operations remove entries matching the outpoint. -/
def applyChange (p : Params) (H : Int) (st : NodeState) (c : Change) : NodeState :=
  match c.ty with
  | .addClaim =>
    { st with claims := st.claims ++
        [⟨c.claimID, c.outPoint, c.amount, H, H + computeDelay p H st c.amount⟩] }
  | .updateClaim =>
    let accepted := ((st.claims.find? (fun cl => decide (cl.claimID = c.claimID))).map
      (fun cl => cl.accepted)).getD H
    let rest := st.claims.filter (fun cl => !(decide (cl.claimID = c.claimID)))
    let st1 := { st with claims := rest }
    { st1 with claims := st1.claims ++
        [⟨c.claimID, c.outPoint, c.amount, accepted, accepted + computeDelay p H st1 c.amount⟩] }
  | .spendClaim =>
    { st with claims := st.claims.filter (fun cl => !(decide (cl.outPoint = c.outPoint))) }
  | .addSupport =>
    { st with supports := st.supports ++
        [⟨c.claimID, c.outPoint, c.amount, H, H + computeDelay p H st c.amount⟩] }
  | .spendSupport =>
    { st with supports := st.supports.filter (fun su => !(decide (su.outPoint = c.outPoint))) }

/-- One height step of the node state machine: apply the changes recorded at
`H` in order, then evaluate the takeover rule. -/
def nodeStep (p : Params) (H : Int) (chgsAtH : List Change) (st : NodeState) : NodeState :=
  let st1 := chgsAtH.foldl (applyChange p H) st
  match bidWinner p H st1 with
  | some w =>
    if st1.controllerID = some w.claimID then st1
    else { st1 with controllerID := some w.claimID, takeover := H }
  | none => { st1 with controllerID := none }

/-- Modelled from the spec: rebuild the node for one name from its
chronologically ordered change list up to target height `H`, walking every
height so that intermediate takeovers are observed. -/
def nodeAt (p : Params) (chgs : List Change) (H : Int) : NodeState :=
  (List.range (H.toNat + 1)).foldl
    (fun st i =>
      nodeStep p (Int.ofNat i) (chgs.filter (fun c => decide (c.height = Int.ofNat i))) st)
    emptyNode

/-- Modelled from the spec: the smallest future height at which the node's
state will change (next activation or expiration), or 0 if none remains. -/
def nextUpdateOf (p : Params) (chgs : List Change) (H : Int) : Int :=
  let st := nodeAt p chgs H
  let cands : List Int :=
    ((st.claims.map (fun c => c.active)).filter (fun a => decide (H < a))) ++
    ((st.claims.map (claimExpires p)).filter (fun a => decide (H < a))) ++
    ((st.supports.map (fun su => su.active)).filter (fun a => decide (H < a))) ++
    ((st.supports.map (supExpires p)).filter (fun a => decide (H < a)))
  match cands with
  | [] => 0
  | x :: xs => xs.foldl min x

/-- The changes of the log pertaining to one name, in log order. -/
def changesOf (log : List Change) (n : Name) : List Change :=
  log.filter (fun c => decide (c.name = n))

/-- A name's node state changes at height `h` when its rebuilt state at `h`
differs from its state at `h - 1`. -/
def stateChangesAt (p : Params) (log : List Change) (n : Name) (h : Int) : Prop :=
  nodeAt p (changesOf log n) h ≠ nodeAt p (changesOf log n) (h - 1)

instance (p : Params) (log : List Change) (n : Name) (h : Int) :
    Decidable (stateChangesAt p log n h) := by
  unfold stateChangesAt; infer_instance

/-- The sorted, deduplicated list of names appearing in a change log. -/
def namesOfLog (log : List Change) : List Name :=
  removeDuplicates (log.map (fun c => c.name))

/-- Injective encoding of a node's hash input under the two schemes. -/
inductive NodeHashData
  | pre (controller : OutPt) (takeover : Int)
  | post (entries : List (OutPt × Int × List (OutPt × Int)))
deriving DecidableEq

/-- Pre-fork node hash input: the controlling claim's outpoint and the
takeover height; absent when there is no controller. -/
def preSummary (st : NodeState) : Option NodeHashData :=
  match st.controllerID with
  | none => none
  | some cid =>
    (st.claims.find? (fun c => decide (c.claimID = cid))).map
      (fun c => NodeHashData.pre c.outPoint st.takeover)

/-- Post-fork node hash input: every active claim with its outpoint, the
takeover height and its active supports' outpoints and amounts. -/
def postSummary (p : Params) (H : Int) (st : NodeState) : Option NodeHashData :=
  let act := st.claims.filter (claimActiveAt p H)
  if act.isEmpty then none
  else some (.post (act.map (fun c =>
    (c.outPoint, st.takeover,
      (st.supports.filter (fun su => decide (su.claimID = c.claimID) && supActiveAt p H su)).map
        (fun su => (su.outPoint, su.amount))))))

/-- An idealized Merkle root: the scheme in force plus the hash inputs of
every name with a nonempty node, an injective encoding of what the real root
commits to. -/
structure Root where
  postScheme : Bool
  entries : List (Name × NodeHashData)
deriving DecidableEq

/-- Modelled from the spec invariant: the root as a pure function of the
change log truncated at height `H` and the fork height constant. -/
def rootAt (p : Params) (log : List Change) (H : Int) : Root :=
  let post : Bool := decide (H ≥ p.allClaimsFork)
  { postScheme := post,
    entries := (namesOfLog log).filterMap (fun n =>
      let st := nodeAt p (changesOf log n) H
      (if post then postSummary p H st else preSummary st).map (fun d => (n, d))) }

/-- Orchestrator plus collaborator state in the concrete model: the change
log held by the node repo, the node manager's height, the temporal index, the
block-hash repo and the orchestrator's height. -/
structure CT where
  changes : List Change
  nmHeight : Int
  temporal : List (Int × Name)
  blocks : List (Int × Root)
  height : Int
deriving DecidableEq

/-- A fresh instance at height 0 whose block repo knows the empty root. -/
def freshCT (p : Params) : CT :=
  { changes := [], nmHeight := 0, temporal := [], blocks := [(0, rootAt p [] 0)], height := 0 }

/-- Temporal repo read (`NodesAt`): names recorded for height `h`, in sorted
deduplicated order as iteration over the keyed store yields them. -/
def nodesAtC (ct : CT) (h : Int) : List Name :=
  removeDuplicates ((ct.temporal.filter (fun pr => decide (pr.1 = h))).map (fun pr => pr.2))

/-- Temporal repo write (`SetNodesAt`): idempotent insertion of pairs. -/
def setNodesAtC (ct : CT) (pairs : List (Int × Name)) : CT :=
  { ct with temporal := pairs.foldl (fun t pr => if pr ∈ t then t else t ++ [pr]) ct.temporal }

/-- Block repo lookup, newest entry first. -/
def blockLookup (blocks : List (Int × Root)) (h : Int) : Option Root :=
  (blocks.find? (fun pr => decide (pr.1 = h))).map (fun pr => pr.2)

/-- Node manager `IncrementHeightTo`: advance and report the names whose
buffered changes land at the new height. -/
def incHeightToC (ct : CT) (h : Int) : CT × List Name :=
  ({ ct with nmHeight := h }, (ct.changes.filter (fun c => decide (c.height = h))).map (fun c => c.name))

/-- Node manager `DecrementHeightTo`: for the given names, drop changes above
the target height, then rewind the manager height. -/
def decHeightToC (ct : CT) (names : List Name) (target : Int) : CT :=
  { ct with
    changes := ct.changes.filter (fun c => !(decide (c.name ∈ names) && decide (target < c.height))),
    nmHeight := target }

/-- Node manager `NextUpdateHeightOfNode`: pre-normalization the canonical
name is the name itself; the height comes from the rebuilt node. -/
def nextUpdHeightC (p : Params) (ct : CT) (n : Name) : Name × Int :=
  (n, nextUpdateOf p (changesOf ct.changes n) ct.nmHeight)

/-- Model of `ClaimTrie.MerkleHash` over the concrete state. -/
def merkleHashC (p : Params) (ct : CT) : Root :=
  rootAt p ct.changes ct.height

/-- Model of `ClaimTrie.AppendBlock` (Go lines 207-258) over the concrete
collaborators.  Trie updates and the fork sweep do not affect the idealized
root and so leave no trace here; the temporal batch and block-repo write are
as in the source. -/
def appendBlockC (p : Params) (ct : CT) : CT :=
  let h := ct.height + 1
  let ct1 := { ct with height := h }
  let pr := incHeightToC ct1 h
  let ct2 := pr.1
  let ns := pr.2
  let exps := nodesAtC ct2 h
  let names1 := removeDuplicates ns
  let names2 := processedNames ns exps
  let sched := names2.filterMap (fun n =>
    let r := nextUpdHeightC p ct2 n
    if r.2 > 0 then some (r.2, r.1) else none)
  let pairs := names1.map (fun n => (h, n)) ++ sched
  let ct3 := setNodesAtC ct2 pairs
  let rt := merkleHashC p ct3
  { ct3 with blocks := (h, rt) :: ct3.blocks }

/-- Model of `ClaimTrie.ResetHeight` (Go lines 291-322) over the concrete
collaborators. -/
def resetHeightC (p : Params) (ct : CT) (target : Int) : Except Err CT :=
  let names := (heightsIn target ct.height).foldl (fun acc h => acc ++ nodesAtC ct h) []
  let ct1 := decHeightToC ct names target
  let ct2 := { ct1 with height := target }
  match blockLookup ct2.blocks target with
  | none => .error (.kv 0)
  | some rt => if merkleHashC p ct2 = rt then .ok ct2 else .error (.badRoot target)

/-- Model of `forwardNodeChange` over the concrete state: stamp the change
with `height + 1` and append it to the node manager's log. -/
def forwardC (ct : CT) (chg : Change) : CT :=
  { ct with changes := ct.changes ++ [{ chg with height := ct.height + 1 }] }

/-- Concrete `AddClaim`. -/
def addClaimC (ct : CT) (n : Name) (op : OutPt) (id : ClaimID) (amt : Int) : CT :=
  forwardC ct { ty := .addClaim, name := n, outPoint := op, claimID := id, amount := amt }

/-- Concrete `UpdateClaim`. -/
def updateClaimC (ct : CT) (n : Name) (op : OutPt) (amt : Int) (id : ClaimID) : CT :=
  forwardC ct { ty := .updateClaim, name := n, outPoint := op, claimID := id, amount := amt }

/-- Concrete `SpendClaim`. -/
def spendClaimC (ct : CT) (n : Name) (op : OutPt) (id : ClaimID) : CT :=
  forwardC ct { ty := .spendClaim, name := n, outPoint := op, claimID := id }

/-- Concrete `AddSupport`. -/
def addSupportC (ct : CT) (n : Name) (op : OutPt) (amt : Int) (id : ClaimID) : CT :=
  forwardC ct { ty := .addSupport, name := n, outPoint := op, claimID := id, amount := amt }

/-- Concrete `SpendSupport`. -/
def spendSupportC (ct : CT) (n : Name) (op : OutPt) (id : ClaimID) : CT :=
  forwardC ct { ty := .spendSupport, name := n, outPoint := op, claimID := id }

/-- One submission or block append in a run of the public API. -/
inductive ApiOp
  | add (n : Name) (op : OutPt) (id : ClaimID) (amt : Int)
  | upd (n : Name) (op : OutPt) (amt : Int) (id : ClaimID)
  | spend (n : Name) (op : OutPt) (id : ClaimID)
  | addSup (n : Name) (op : OutPt) (amt : Int) (id : ClaimID)
  | spendSup (n : Name) (op : OutPt) (id : ClaimID)
  | append

/-- Apply one API operation to a concrete instance. -/
def applyApiOp (p : Params) (ct : CT) : ApiOp → CT
  | .add n op id amt => addClaimC ct n op id amt
  | .upd n op amt id => updateClaimC ct n op amt id
  | .spend n op id => spendClaimC ct n op id
  | .addSup n op amt id => addSupportC ct n op amt id
  | .spendSup n op id => spendSupportC ct n op id
  | .append => appendBlockC p ct

/-- Run a sequence of API operations. -/
def runOps (p : Params) (ops : List ApiOp) (ct : CT) : CT :=
  ops.foldl (applyApiOp p) ct

/-- The Merkle root reported after each `AppendBlock` of a run, i.e. the root
at every height the run reaches. -/
def rootsTrace (p : Params) : List ApiOp → CT → List Root
  | [], _ => []
  | op :: rest, ct =>
    let ct1 := applyApiOp p ct op
    match op with
    | .append => merkleHashC p ct1 :: rootsTrace p rest ct1
    | _ => rootsTrace p rest ct1

/-! ## Concrete instances used by counterexamples and witnesses -/

/-- Concrete parameters for counterexample runs: small expirations, forks far
in the future (heights used stay below them). -/
def p0 : Params :=
  { originalExp := 5, extendedExp := 8, extendedExpFork := 100, allClaimsFork := 100 }

/-- A script whose collaborator calls all succeed trivially. -/
def okScript : Script :=
  { incRes := fun _ => .ok []
    nodesAtRes := fun _ => .ok []
    nextUp := fun n => (n, 0)
    iterNames := []
    setNodesRes := .ok ()
    getRes := fun _ => .ok 0
    setRes := .ok ()
    decRes := .ok ()
    appendRes := .ok ()
    hashVal := 0
    hashAllVal := 1 }

/-- A script whose node-manager increment fails. -/
def sIncFail : Script := { okScript with incRes := fun _ => .error (.kv 7) }

/-- A script whose block-repo `Set` fails while everything else succeeds. -/
def sSetFail : Script := { okScript with setRes := .error (.kv 3) }

/-- A fresh scripted-model state. -/
def ct0 : CTS := { height := 0, trace := [] }

/-- An outpoint and claim id for concrete runs. -/
def opA : OutPt := { txid := [1], idx := 0 }

/-- A one-byte name for concrete runs. -/
def nameA : Name := [0]

/-- Concrete run for the round-trip counterexample: a fresh instance with one
pending claim, after its first block append. -/
def ct1c : CT := appendBlockC p0 (addClaimC (freshCT p0) nameA opA [9] 10)

/-- The state the round-trip counterexample reaches after resetting back to
height 0 (the reset succeeds; the fallback branch is never taken). -/
def ct2c : CT :=
  match resetHeightC p0 ct1c 0 with
  | .ok c => c
  | .error _ => freshCT p0

/-- Concrete run for the temporal-index counterexample: add a claim, append,
spend it, append. -/
def ct4c : CT :=
  runOps p0 [.add nameA opA [9] 10, .append, .spend nameA opA [9], .append] (freshCT p0)

/-! ## END OF DEFINITIONS MARKER -/

/-! ## Theorems -/

theorem lexLt_irrefl (a : Name) : lexLt a a = false := by
  induction a with
  | nil => rfl
  | cons x xs ih => simp [lexLt, ih]

theorem lexLt_asymm : ∀ a b : Name, lexLt a b = true → lexLt b a = false := by
  intro a
  induction a with
  | nil => intro b h; cases b with
    | nil => simp [lexLt] at h
    | cons y ys => simp [lexLt]
  | cons x xs ih =>
    intro b h
    cases b with
    | nil => simp [lexLt] at h
    | cons y ys =>
      simp only [lexLt] at h ⊢
      rcases lt_trichotomy x y with hxy | hxy | hxy
      · simp [hxy, not_lt.mpr (le_of_lt hxy)]
      · subst hxy
        simp only [lt_irrefl, if_false] at h ⊢
        exact ih ys h
      · simp [hxy, not_lt.mpr (le_of_lt hxy)] at h

theorem lexLt_or_eq_or_gt : ∀ a b : Name, lexLt a b = true ∨ a = b ∨ lexLt b a = true := by
  intro a
  induction a with
  | nil => intro b; cases b with
    | nil => right; left; rfl
    | cons y ys => left; rfl
  | cons x xs ih =>
    intro b
    cases b with
    | nil => right; right; rfl
    | cons y ys =>
      rcases lt_trichotomy x y with hxy | hxy | hxy
      · left; simp [lexLt, hxy]
      · subst hxy
        rcases ih ys with h | h | h
        · left; simp [lexLt, h]
        · right; left; rw [h]
        · right; right; simp [lexLt, h]
      · right; right; simp [lexLt, hxy]

theorem lexLt_trans : ∀ a b c : Name, lexLt a b = true → lexLt b c = true → lexLt a c = true := by
  intro a
  induction a with
  | nil =>
    intro b c hab hbc
    cases b with
    | nil => simp [lexLt] at hab
    | cons y ys =>
      cases c with
      | nil => simp [lexLt] at hbc
      | cons z zs => simp [lexLt]
  | cons x xs ih =>
    intro b c hab hbc
    cases b with
    | nil => simp [lexLt] at hab
    | cons y ys =>
      cases c with
      | nil => simp [lexLt] at hbc
      | cons z zs =>
        simp only [lexLt] at hab hbc ⊢
        rcases lt_trichotomy x y with hxy | hxy | hxy
        · rcases lt_trichotomy y z with hyz | hyz | hyz
          · simp [lt_trans hxy hyz]
          · subst hyz; simp [hxy]
          · simp [hyz, not_lt.mpr (le_of_lt hyz)] at hbc
        · subst hxy
          rcases lt_trichotomy x z with hxz | hxz | hxz
          · simp [hxz]
          · subst hxz
            simp only [lt_irrefl, if_false] at hab hbc ⊢
            exact ih ys zs hab hbc
          · simp [hxz, not_lt.mpr (le_of_lt hxz)] at hbc
        · simp [hxy, not_lt.mpr (le_of_lt hxy)] at hab

theorem lexLe_total (a b : Name) : lexLe a b = true ∨ lexLe b a = true := by
  rcases lexLt_or_eq_or_gt a b with h | h | h
  · left; simp [lexLe, lexLt_asymm a b h]
  · subst h; left; simp [lexLe, lexLt_irrefl]
  · right; simp [lexLe, lexLt_asymm b a h]

theorem lexLe_trans (a b c : Name) (hab : lexLe a b = true) (hbc : lexLe b c = true) :
    lexLe a c = true := by
  simp only [lexLe, Bool.not_eq_true'] at hab hbc ⊢
  by_contra hca
  simp only [Bool.not_eq_false] at hca
  rcases lexLt_or_eq_or_gt b c with h | h | h
  · have := lexLt_trans b c a h hca
    rw [this] at hab; exact absurd hab (by simp)
  · subst h; rw [hca] at hab; exact absurd hab (by simp)
  · rw [h] at hbc; exact absurd hbc (by simp)

theorem lexLe_of_not_lt {a b : Name} (h : lexLt a b = false) : lexLe b a = true := by
  simp [lexLe, h]

theorem lexLt_of_le_of_ne {a b : Name} (hle : lexLe a b = true) (hne : a ≠ b) :
    lexLt a b = true := by
  rcases lexLt_or_eq_or_gt a b with h | h | h
  · exact h
  · exact absurd h hne
  · simp [lexLe, h] at hle

theorem mem_insertName (x : Name) : ∀ l : List Name, ∀ a : Name,
    a ∈ insertName x l ↔ a = x ∨ a ∈ l := by
  intro l
  induction l with
  | nil => intro a; simp [insertName]
  | cons y ys ih =>
    intro a
    by_cases h : lexLe x y = true
    · simp [insertName, h]
    · simp only [insertName, if_neg h, List.mem_cons, ih a]
      tauto

theorem sorted_insertName (x : Name) : ∀ l : List Name, l.Sorted nameLe →
    (insertName x l).Sorted nameLe := by
  intro l
  induction l with
  | nil => intro _; simp [insertName, nameLe]
  | cons y ys ih =>
    intro hs
    by_cases h : lexLe x y = true
    · simp only [insertName, if_pos h]
      refine List.sorted_cons.mpr ⟨?_, hs⟩
      intro b hb
      rcases List.mem_cons.mp hb with hb | hb
      · subst hb; exact h
      · exact lexLe_trans x y b h (List.rel_of_sorted_cons hs b hb)
    · simp only [insertName, if_neg h]
      refine List.sorted_cons.mpr ⟨?_, ih hs.of_cons⟩
      intro b hb
      rcases (mem_insertName x ys b).mp hb with hb | hb
      · subst hb
        have hyx : lexLt y b = true := by simpa [lexLe] using h
        exact lexLe_of_not_lt (lexLt_asymm y b hyx)
      · exact List.rel_of_sorted_cons hs b hb

theorem sorted_sortNames : ∀ l : List Name, (sortNames l).Sorted nameLe := by
  intro l
  induction l with
  | nil => simp [sortNames]
  | cons x xs ih => exact sorted_insertName x (sortNames xs) ih

theorem mem_sortNames : ∀ l : List Name, ∀ a : Name, a ∈ sortNames l ↔ a ∈ l := by
  intro l
  induction l with
  | nil => intro a; simp [sortNames]
  | cons x xs ih =>
    intro a
    simp only [sortNames, mem_insertName x (sortNames xs) a, ih a, List.mem_cons]

theorem mem_dedupAdj : ∀ l : List Name, ∀ x : Name, x ∈ dedupAdj l ↔ x ∈ l := by
  intro l
  induction l with
  | nil => intro x; simp [dedupAdj]
  | cons a rest ih =>
    intro x
    cases rest with
    | nil => simp [dedupAdj]
    | cons b rest2 =>
      by_cases hab : a = b
      · subst hab
        rw [show dedupAdj (a :: a :: rest2) = dedupAdj (a :: rest2) by simp [dedupAdj]]
        rw [ih x]
        simp
      · simp only [dedupAdj, if_neg hab, List.mem_cons]
        rw [ih x]
        simp

theorem dedupAdj_sorted_strict :
    ∀ l : List Name, l.Sorted nameLe → (dedupAdj l).Pairwise (fun a b => lexLt a b = true) := by
  intro l
  induction l with
  | nil => intro _; simp [dedupAdj]
  | cons a rest ih =>
    intro hs
    have hs' : rest.Sorted nameLe := hs.of_cons
    cases rest with
    | nil => simp [dedupAdj]
    | cons b rest2 =>
      by_cases hab : a = b
      · subst hab
        simpa [dedupAdj] using ih hs'
      · simp only [dedupAdj, if_neg hab]
        refine List.pairwise_cons.mpr ⟨?_, ih hs'⟩
        intro y hy
        rw [mem_dedupAdj] at hy
        have hablt : lexLt a b = true :=
          lexLt_of_le_of_ne (List.rel_of_sorted_cons hs b (by simp)) hab
        rcases List.mem_cons.mp hy with hyb | hy2
        · subst hyb; exact hablt
        · have hby : nameLe b y := List.rel_of_sorted_cons hs' y hy2
          rcases lexLt_or_eq_or_gt b y with h | h | h
          · exact lexLt_trans a b y hablt h
          · subst h; exact hablt
          · simp [nameLe, lexLe, h] at hby

theorem removeDuplicates_pairwise (names : List Name) :
    (removeDuplicates names).Pairwise (fun a b => lexLt a b = true) :=
  dedupAdj_sorted_strict _ (sorted_sortNames names)

theorem mem_removeDuplicates (names : List Name) (x : Name) :
    x ∈ removeDuplicates names ↔ x ∈ names := by
  unfold removeDuplicates
  rw [mem_dedupAdj]
  exact mem_sortNames names x

theorem removeDuplicates_sorted (names : List Name) :
    (removeDuplicates names).Sorted nameLe := by
  have h := removeDuplicates_pairwise names
  exact h.imp (fun hlt => by
    simp only [nameLe, lexLe, Bool.not_eq_true']
    exact lexLt_asymm _ _ hlt)

theorem removeDuplicates_nodup (names : List Name) :
    (removeDuplicates names).Nodup := by
  have h := removeDuplicates_pairwise names
  exact h.imp (fun hlt => by
    intro he
    subst he
    rw [lexLt_irrefl] at hlt
    exact absurd hlt (by simp))


/-! ## Claim C9 -/

/-- C9: `removeDuplicates` returns a list sorted in strictly ascending
lexicographic byte order (hence with no two equal elements) containing exactly
the distinct elements of its input; consequently the processed name list of
`AppendBlock`, `removeDuplicates(removeDuplicates(names) ++ expirations)`, is
sorted and duplicate-free and contains exactly the touched and expiring names. -/
theorem claimtrie_C9_removeDuplicates_sorted_exact (names exps : List Name) :
    (removeDuplicates names).Pairwise (fun a b => lexLt a b = true) ∧
    (∀ x, x ∈ removeDuplicates names ↔ x ∈ names) ∧
    (processedNames names exps).Pairwise (fun a b => lexLt a b = true) ∧
    (∀ x, x ∈ processedNames names exps ↔ x ∈ names ∨ x ∈ exps) := by
  refine ⟨removeDuplicates_pairwise names, mem_removeDuplicates names, ?_, ?_⟩
  · exact removeDuplicates_pairwise _
  · intro x
    unfold processedNames
    rw [mem_removeDuplicates, List.mem_append, mem_removeDuplicates]

/-! ## Claim C8 -/

/-- C8: each of the five change submitters leaves the orchestrator height
unchanged and forwards to the node manager a change whose height field is the
current height plus one. -/
theorem claimtrie_C8_submitters_frame (s : Script) (ct : CTS) (n : Name) (op : OutPt)
    (id : ClaimID) (amt : Int) :
    ((addClaimS s ct n op id amt).1.height = ct.height ∧
      (addClaimS s ct n op id amt).1.trace = ct.trace ++
        [Ev.appendChange (Change.mk .addClaim n op id amt (ct.height + 1))]) ∧
    ((updateClaimS s ct n op amt id).1.height = ct.height ∧
      (updateClaimS s ct n op amt id).1.trace = ct.trace ++
        [Ev.appendChange (Change.mk .updateClaim n op id amt (ct.height + 1))]) ∧
    ((spendClaimS s ct n op id).1.height = ct.height ∧
      (spendClaimS s ct n op id).1.trace = ct.trace ++
        [Ev.appendChange (Change.mk .spendClaim n op id 0 (ct.height + 1))]) ∧
    ((addSupportS s ct n op amt id).1.height = ct.height ∧
      (addSupportS s ct n op amt id).1.trace = ct.trace ++
        [Ev.appendChange (Change.mk .addSupport n op id amt (ct.height + 1))]) ∧
    ((spendSupportS s ct n op id).1.height = ct.height ∧
      (spendSupportS s ct n op id).1.trace = ct.trace ++
        [Ev.appendChange (Change.mk .spendSupport n op id 0 (ct.height + 1))]) := by
  cases h : s.appendRes <;>
    simp [addClaimS, updateClaimS, spendClaimS, addSupportS, spendSupportS,
      forwardNodeChangeS, h]

/-! ## Claim C10 -/

/-- C10: `AppendBlock` discards the error returned by `blockRepo.Set`; with a
script whose `Set` fails and all other calls succeed, `AppendBlock` still
returns success, so the new root is never persisted yet the caller sees nil. -/
theorem claimtrie_C10_blockSet_error_discarded :
    sSetFail.setRes = .error (.kv 3) ∧ (appendBlockS sSetFail p0 ct0).2 = .ok () := by
  constructor
  · rfl
  · rfl

/-! ## Claim C3 -/

/-- C3 counterexample: with a script whose node-manager increment fails,
`AppendBlock` returns the error but the orchestrator's height field has
already been incremented, so the state is not unchanged as the claim asserts. -/
theorem claimtrie_C3_counterexample :
    (appendBlockS sIncFail p0 ct0).2 = .error (.kv 7) ∧
    (appendBlockS sIncFail p0 ct0).1.height ≠ ct0.height := by
  constructor
  · rfl
  · decide

/-- C3 amended: a failing collaborator call makes the operation return the
error, but the height field is not always unchanged: `AppendBlock` increments
it before any collaborator call (so it is the previous height plus one even on
failure), and `ResetHeight` leaves it unchanged only when `NodesAt` or
`DecrementHeightTo` fails, while a `blockRepo.Get` failure leaves it already
set to the target. -/
theorem claimtrie_C3_amended (s : Script) (p : Params) (ct : CTS) (target : Int)
    (e : Err) (ns exps : List Name) :
    ((appendBlockS s p ct).1.height = ct.height + 1) ∧
    (s.incRes (ct.height + 1) = .error e → (appendBlockS s p ct).2 = .error e) ∧
    (s.incRes (ct.height + 1) = .ok ns → s.nodesAtRes (ct.height + 1) = .error e →
      (appendBlockS s p ct).2 = .error e) ∧
    (s.incRes (ct.height + 1) = .ok ns → s.nodesAtRes (ct.height + 1) = .ok exps →
      s.setNodesRes = .error e → (appendBlockS s p ct).2 = .error e) ∧
    (collectNamesAt s target ct.height = .error e →
      resetHeightS s p ct target = (ct, .error e)) ∧
    (collectNamesAt s target ct.height = .ok ns → s.decRes = .error e →
      resetHeightS s p ct target = (ct, .error e)) ∧
    (collectNamesAt s target ct.height = .ok ns → s.decRes = .ok () →
      s.getRes target = .error e →
      (resetHeightS s p ct target).2 = .error e ∧
        (resetHeightS s p ct target).1.height = target) := by
  refine ⟨?_, ?_, ?_, ?_, ?_, ?_, ?_⟩
  · simp only [appendBlockS]
    cases hi : s.incRes (ct.height + 1) with
    | error e1 => simp
    | ok ns1 =>
      cases hn : s.nodesAtRes (ct.height + 1) with
      | error e1 => simp
      | ok exps1 =>
        cases hs : s.setNodesRes with
        | error e1 => simp
        | ok u =>
          by_cases hf : ct.height + 1 = p.allClaimsFork <;> simp [hf]
  · intro hi; simp [appendBlockS, hi]
  · intro hi hn; simp [appendBlockS, hi, hn]
  · intro hi hn hs; simp [appendBlockS, hi, hn, hs]
  · intro hc; simp [resetHeightS, hc]
  · intro hc hd; simp [resetHeightS, hc, hd]
  · intro hc hd hg; simp [resetHeightS, hc, hd, hg]

/-- Witness for the amended C3 at a concrete script: the increment fails, the
error is returned and the height is one more than before. -/
theorem claimtrie_C3_amended_witness :
    (appendBlockS sIncFail p0 ct0).2 = .error (.kv 7) ∧
    (appendBlockS sIncFail p0 ct0).1.height = ct0.height + 1 := by
  have h := claimtrie_C3_amended sIncFail p0 ct0 0 (.kv 7) [] []
  exact ⟨h.2.1 rfl, h.1⟩

/-! ## Claim C5 -/

/-- C5: with the collaborator reads succeeding, the restore phase of `New`
(at a positive persisted height) succeeds exactly when the recomputed root
equals the root persisted for that height, and the final check of
`ResetHeight` returns success exactly when the recomputed root equals the
persisted root for the target height. -/
theorem claimtrie_C5_restore_root_check (s : Script) (p : Params) (ct : CTS)
    (ph target : Int) (hv hv2 : HashV) (ns ns2 : List Name)
    (hph : 0 < ph) (hget : s.getRes ph = .ok hv) (hinc : s.incRes ph = .ok ns)
    (hcol : collectNamesAt s target ct.height = .ok ns2) (hdec : s.decRes = .ok ())
    (hget2 : s.getRes target = .ok hv2) :
    ((∃ c, newRestoreS s p ph = .ok c) ↔ merkleHashS s p ph = hv) ∧
    ((resetHeightS s p ct target).2 = .ok () ↔ merkleHashS s p target = hv2) := by
  constructor
  · by_cases h : merkleHashS s p ph = hv <;> simp [newRestoreS, hph, hget, hinc, h]
  · by_cases h : merkleHashS s p target = hv2 <;> simp [resetHeightS, hcol, hdec, hget2, h]

/-- Witness for C5 at a concrete script where both roots agree: both restore
paths succeed. -/
theorem claimtrie_C5_witness :
    (∃ c, newRestoreS okScript p0 1 = .ok c) ∧ (resetHeightS okScript p0 ct0 0).2 = .ok () := by
  have h := claimtrie_C5_restore_root_check okScript p0 ct0 1 0 0 0 [] []
    (by decide) rfl rfl rfl rfl rfl
  exact ⟨h.1.mpr (by decide), h.2.mpr (by decide)⟩

/-! ## Claims C6 and C7 -/

theorem foldlM_nodesAt_ok (s : Script) (f : Int → List Name)
    (hf : ∀ h, s.nodesAtRes h = .ok (f h)) :
    ∀ (L : List Int) (acc : List Name),
      (L.foldlM (fun acc h => (s.nodesAtRes h).map (fun l => acc ++ l)) acc
        : Except Err (List Name)) = .ok (acc ++ L.flatMap f) := by
  intro L
  induction L with
  | nil => intro acc; simp; rfl
  | cons h t ih =>
    intro acc
    rw [List.foldlM_cons, hf h]
    simpa [Except.map, List.flatMap_cons] using ih (acc ++ f h)

theorem collectNamesAt_ok (s : Script) (f : Int → List Name)
    (hf : ∀ h, s.nodesAtRes h = .ok (f h)) (lo hi : Int) :
    collectNamesAt s lo hi = .ok ((heightsIn lo hi).flatMap f) := by
  unfold collectNamesAt
  simpa using foldlM_nodesAt_ok s f hf (heightsIn lo hi) []

theorem mem_heightsIn (lo hi h : Int) : h ∈ heightsIn lo hi ↔ lo < h ∧ h ≤ hi := by
  unfold heightsIn
  simp only [List.mem_map, List.mem_range]
  constructor
  · rintro ⟨i, hi1, rfl⟩
    simp only [Int.ofNat_eq_natCast]
    omega
  · rintro ⟨h1, h2⟩
    exact ⟨(h - lo - 1).toNat, by omega, by simp only [Int.ofNat_eq_natCast]; omega⟩

/-- C6: `ResetHeight(target)` rewinds the node manager with the concatenation
of the temporal sets for the heights in `(target, current]` (exactly the union
of those sets), sets the height to `target`, and calls `SetRoot` with null
names exactly when the pre-call height was at or past the fork height and the
target is below it, otherwise with that same name list. -/
theorem claimtrie_C6_resetHeight_rewind (s : Script) (p : Params) (ct : CTS)
    (target : Int) (f : Int → List Name) (hv : HashV)
    (hf : ∀ h, s.nodesAtRes h = .ok (f h)) (hdec : s.decRes = .ok ())
    (hget : s.getRes target = .ok hv) :
    (resetHeightS s p ct target).1.height = target ∧
    (resetHeightS s p ct target).1.trace = ct.trace ++
      [Ev.decCall ((heightsIn target ct.height).flatMap f) target,
       Ev.setRoot hv (if ct.height ≥ p.allClaimsFork ∧ target < p.allClaimsFork then none
         else some ((heightsIn target ct.height).flatMap f))] ∧
    (∀ x, x ∈ (heightsIn target ct.height).flatMap f ↔
      ∃ h, target < h ∧ h ≤ ct.height ∧ x ∈ f h) := by
  have hcol := collectNamesAt_ok s f hf target ct.height
  refine ⟨?_, ?_, ?_⟩
  · by_cases hm : merkleHashS s p target = hv <;>
      simp [resetHeightS, hcol, hdec, hget, hm]
  · by_cases hm : merkleHashS s p target = hv <;>
      simp [resetHeightS, hcol, hdec, hget, hm]
  · intro x
    simp only [List.mem_flatMap, mem_heightsIn]
    constructor
    · rintro ⟨h, ⟨h1, h2⟩, h3⟩
      exact ⟨h, h1, h2, h3⟩
    · rintro ⟨h, h1, h2, h3⟩
      exact ⟨h, ⟨h1, h2⟩, h3⟩

/-- Witness for C6 at a concrete script: the reset lands on the target height
with the expected two-call trace. -/
theorem claimtrie_C6_witness :
    (resetHeightS okScript p0 ct0 0).1.height = 0 ∧
    (resetHeightS okScript p0 ct0 0).1.trace =
      [Ev.decCall [] 0, Ev.setRoot 0 (some [])] := by
  have h := claimtrie_C6_resetHeight_rewind okScript p0 ct0 0 (fun _ => []) 0
    (fun _ => rfl) rfl rfl
  refine ⟨h.1, ?_⟩
  have h2 := h.2.1
  simpa using h2

/-- C7: with the collaborator calls succeeding, `AppendBlock` performs the
fork sweep (a `trie.Update(name, false)` for every iterated name) followed,
after the root is persisted, by a `trie.SetRoot(root, names)` call, exactly
when the new height equals `AllClaimsInMerkleForkHeight`; at every other
height neither a recompute-free update nor any `SetRoot` call occurs. -/
theorem claimtrie_C7_fork_sweep (s : Script) (p : Params) (ct : CTS)
    (ns exps : List Name)
    (hinc : s.incRes (ct.height + 1) = .ok ns)
    (hna : s.nodesAtRes (ct.height + 1) = .ok exps)
    (hsn : s.setNodesRes = .ok ()) :
    (appendBlockS s p ct).2 = .ok () ∧
    (ct.height + 1 = p.allClaimsFork →
      (appendBlockS s p ct).1.trace =
        ct.trace ++ mainLoopEvents ns exps ++ [batchEvent s (ct.height + 1) ns exps] ++
        sweepEvents s ++
        [Ev.blockSet (ct.height + 1) (merkleHashS s p (ct.height + 1)),
         Ev.setRoot (merkleHashS s p (ct.height + 1)) (some (processedNames ns exps))]) ∧
    (ct.height + 1 ≠ p.allClaimsFork →
      (appendBlockS s p ct).1.trace =
        ct.trace ++ mainLoopEvents ns exps ++
        [batchEvent s (ct.height + 1) ns exps,
         Ev.blockSet (ct.height + 1) (merkleHashS s p (ct.height + 1))] ∧
      (∀ n, Ev.trieUpdate n false ∉
        mainLoopEvents ns exps ++
          [batchEvent s (ct.height + 1) ns exps,
           Ev.blockSet (ct.height + 1) (merkleHashS s p (ct.height + 1))]) ∧
      (∀ hv l, Ev.setRoot hv l ∉
        mainLoopEvents ns exps ++
          [batchEvent s (ct.height + 1) ns exps,
           Ev.blockSet (ct.height + 1) (merkleHashS s p (ct.height + 1))])) := by
  refine ⟨?_, ?_, ?_⟩
  · by_cases hfork : ct.height + 1 = p.allClaimsFork
    · have hinc' : s.incRes p.allClaimsFork = .ok ns := by rw [← hfork]; exact hinc
      have hna' : s.nodesAtRes p.allClaimsFork = .ok exps := by rw [← hfork]; exact hna
      simp [appendBlockS, hfork, hinc', hna', hsn]
    · simp [appendBlockS, hinc, hna, hsn, hfork]
  · intro hfork
    have hinc' : s.incRes p.allClaimsFork = .ok ns := by rw [← hfork]; exact hinc
    have hna' : s.nodesAtRes p.allClaimsFork = .ok exps := by rw [← hfork]; exact hna
    simp [appendBlockS, hfork, hinc', hna', hsn, mainLoopEvents, batchEvent]
  · intro hfork
    refine ⟨?_, ?_, ?_⟩
    · simp [appendBlockS, hinc, hna, hsn, hfork, mainLoopEvents, batchEvent]
    · intro n
      simp [mainLoopEvents, batchEvent]
    · intro hv l
      simp [mainLoopEvents, batchEvent]

/-- Witness for C7 at a concrete script below the fork height: the append
succeeds and its trace holds only the recompute updates, the temporal batch
and the block-repo write. -/
theorem claimtrie_C7_witness :
    (appendBlockS okScript p0 ct0).2 = .ok () ∧
    (appendBlockS okScript p0 ct0).1.trace = [Ev.setNodes [] [], Ev.blockSet 1 0] := by
  have h := claimtrie_C7_fork_sweep okScript p0 ct0 [] [] rfl rfl rfl
  refine ⟨h.1, ?_⟩
  have h2 := (h.2.2 (by decide)).1
  simpa [mainLoopEvents, batchEvent, processedNames, removeDuplicates, sortNames, dedupAdj,
    scheduleOf] using h2

/-! ## Claim C1 -/

/-- C1: determinism of the root.  Two fresh instances given the same ordered
sequence of change submissions and block appends produce identical Merkle
roots at every height (and identical final states): the pipeline has no
source of nondeterminism. -/
theorem claimtrie_C1_determinism (p : Params) (ops : List ApiOp) (ct1 ct2 : CT)
    (h1 : ct1 = freshCT p) (h2 : ct2 = freshCT p) :
    rootsTrace p ops ct1 = rootsTrace p ops ct2 ∧ runOps p ops ct1 = runOps p ops ct2 := by
  subst h1
  subst h2
  exact ⟨rfl, rfl⟩

/-- Witness for C1 on a concrete two-operation sequence. -/
theorem claimtrie_C1_witness :
    rootsTrace p0 [ApiOp.add nameA opA [9] 10, ApiOp.append] (freshCT p0) =
      rootsTrace p0 [ApiOp.add nameA opA [9] 10, ApiOp.append] (freshCT p0) :=
  (claimtrie_C1_determinism p0 [ApiOp.add nameA opA [9] 10, ApiOp.append]
    (freshCT p0) (freshCT p0) rfl rfl).1

/-! ## Claim C2 -/

/-- C2 counterexample: from a fresh instance with one pending claim,
`AppendBlock` then `ResetHeight(0)` then `AppendBlock` does not reproduce the
first root: the rewind drops the claim's change (its name is rolled back via
the temporal index), so the second append commits to an empty claim set. -/
theorem claimtrie_C2_counterexample :
    resetHeightC p0 ct1c 0 = .ok ct2c ∧
    merkleHashC p0 (appendBlockC p0 ct2c) ≠ merkleHashC p0 ct1c := by
  constructor
  · rfl
  · decide

/-- Structural fact: `AppendBlock` never modifies the change log. -/
theorem appendBlockC_changes (p : Params) (ct : CT) :
    (appendBlockC p ct).changes = ct.changes := rfl

/-- Structural fact: `AppendBlock` increments the height by one. -/
theorem appendBlockC_height (p : Params) (ct : CT) :
    (appendBlockC p ct).height = ct.height + 1 := rfl

/-- Structural fact: `AppendBlock` persists the new root on top of the block
repo. -/
theorem appendBlockC_blocks (p : Params) (ct : CT) :
    (appendBlockC p ct).blocks =
      (ct.height + 1, rootAt p ct.changes (ct.height + 1)) :: ct.blocks := rfl

/-- A block-repo lookup skips a newest entry with a different height. -/
theorem blockLookup_cons_ne (h' target : Int) (r : Root) (bs : List (Int × Root))
    (hne : h' ≠ target) :
    blockLookup ((h', r) :: bs) target = blockLookup bs target := by
  unfold blockLookup
  rw [List.find?_cons_of_neg]
  simp [hne]

/-- When no change lies above the target and the block repo holds the root the
log recomputes at the target, `ResetHeight` succeeds and returns the state
with the log intact and both heights rewound. -/
theorem resetHeightC_ok (p : Params) (ct : CT) (target : Int)
    (hfil : ∀ c ∈ ct.changes, c.height ≤ target)
    (hlook : blockLookup ct.blocks target = some (rootAt p ct.changes target)) :
    resetHeightC p ct target = .ok
      { changes := ct.changes, nmHeight := target, temporal := ct.temporal,
        blocks := ct.blocks, height := target } := by
  have hfilter : ct.changes.filter
      (fun c => !(decide (c.name ∈ (heightsIn target ct.height).foldl
        (fun acc h => acc ++ nodesAtC ct h) []) && decide (target < c.height))) = ct.changes := by
    apply List.filter_eq_self.mpr
    intro c hc
    have hdec : decide (target < c.height) = false := by
      simp only [decide_eq_false_iff_not, not_lt]
      exact hfil c hc
    simp [hdec]
  have hstate : ({ decHeightToC ct ((heightsIn target ct.height).foldl
      (fun acc h => acc ++ nodesAtC ct h) []) target with height := target } : CT) =
      { changes := ct.changes, nmHeight := target, temporal := ct.temporal,
        blocks := ct.blocks, height := target } := by
    simp only [decHeightToC]
    rw [hfilter]
  unfold resetHeightC
  simp only [] at hstate ⊢
  rw [hstate]
  have hb : ∀ names : List Name, (decHeightToC ct names target).blocks = ct.blocks :=
    fun _ => rfl
  rw [hb]
  rw [hlook]
  simp [merkleHashC]

/-- C2 amended: the round-trip holds for every state with no buffered changes
for the next height (equivalently, when the block's changes are re-submitted
after the rewind, as the block validator does): append, reset to the previous
height, and append again then reproduce the first root.  With changes pending,
the rewind drops them and the property fails (see the counterexample). -/
theorem claimtrie_C2_amended (p : Params) (ct : CT)
    (h1 : ∀ c ∈ ct.changes, c.height ≤ ct.height)
    (h2 : blockLookup ct.blocks ct.height = some (merkleHashC p ct)) :
    ∃ ct2, resetHeightC p (appendBlockC p ct) ct.height = .ok ct2 ∧
      merkleHashC p (appendBlockC p ct2) = merkleHashC p (appendBlockC p ct) := by
  have hfil : ∀ c ∈ (appendBlockC p ct).changes, c.height ≤ ct.height := by
    rw [appendBlockC_changes]
    exact h1
  have hlook : blockLookup (appendBlockC p ct).blocks ct.height =
      some (rootAt p (appendBlockC p ct).changes ct.height) := by
    rw [appendBlockC_blocks, appendBlockC_changes]
    rw [blockLookup_cons_ne _ _ _ _ (by omega)]
    exact h2
  refine ⟨_, resetHeightC_ok p (appendBlockC p ct) ct.height hfil hlook, ?_⟩
  rw [appendBlockC_changes]
  rfl

/-- Witness for the amended C2 at a fresh instance: the reset succeeds and the
re-appended root matches. -/
theorem claimtrie_C2_amended_witness :
    ∃ ct2, resetHeightC p0 (appendBlockC p0 (freshCT p0)) 0 = .ok ct2 ∧
      merkleHashC p0 (appendBlockC p0 ct2) = merkleHashC p0 (appendBlockC p0 (freshCT p0)) :=
  claimtrie_C2_amended p0 (freshCT p0) (by simp [freshCT]) rfl

/-! ## Claim C4 -/

/-- C4 counterexample: after the second `AppendBlock` of the run
add-append-spend-append, the temporal index still lists the name at the
claim's original expiration height 6, but the node's state does not change
there (the claim was spent at height 2), refuting the only-if direction of
the exactness claim. -/
theorem claimtrie_C4_counterexample :
    ((6 : Int), nameA) ∈ ct4c.temporal ∧ ¬ stateChangesAt p0 ct4c.changes nameA 6 := by
  constructor
  · decide
  · decide

/-- Idempotent insertion into the temporal index reaches exactly the old
entries and the new pairs. -/
theorem mem_foldl_insertPair :
    ∀ (pairs : List (Int × Name)) (t : List (Int × Name)) (pr : Int × Name),
      pr ∈ pairs.foldl (fun t x => if x ∈ t then t else t ++ [x]) t ↔ pr ∈ t ∨ pr ∈ pairs := by
  intro pairs
  induction pairs with
  | nil => intro t pr; simp
  | cons q qs ih =>
    intro t pr
    rw [List.foldl_cons]
    by_cases hq : q ∈ t
    · rw [if_pos hq, ih]
      simp only [List.mem_cons]
      constructor
      · rintro (h | h)
        · exact Or.inl h
        · exact Or.inr (Or.inr h)
      · rintro (h | h | h)
        · exact Or.inl h
        · exact Or.inl (h ▸ hq)
        · exact Or.inr h
    · rw [if_neg hq, ih]
      simp only [List.mem_append, List.mem_cons, List.mem_singleton]
      tauto

/-- The temporal index after `AppendBlock`, as the idempotent insertion of the
rollback pairs (touched names at the new height) followed by the collected
schedule. -/
theorem appendBlockC_temporal (p : Params) (ct : CT) :
    (appendBlockC p ct).temporal =
      ((removeDuplicates ((ct.changes.filter (fun c => decide (c.height = ct.height + 1))).map
          (fun c => c.name))).map (fun n => (ct.height + 1, n)) ++
        (processedNames ((ct.changes.filter (fun c => decide (c.height = ct.height + 1))).map
          (fun c => c.name)) (nodesAtC ct (ct.height + 1))).filterMap (fun n =>
            if nextUpdateOf p (changesOf ct.changes n) (ct.height + 1) > 0 then
              some (nextUpdateOf p (changesOf ct.changes n) (ct.height + 1), n) else none)).foldl
        (fun t x => if x ∈ t then t else t ++ [x]) ct.temporal := rfl

/-- C4 amended: completeness holds — after `AppendBlock` every name touched at
the new height is recorded in the temporal index at that height, and every
processed name with a positive next-update height is recorded at that height —
but the converse of the original claim fails: the index may retain names at
heights where their state no longer changes (see the counterexample);
re-examining such a name is idempotent. -/
theorem claimtrie_C4_amended (p : Params) (ct : CT) :
    (∀ c ∈ ct.changes, c.height = ct.height + 1 →
      (ct.height + 1, c.name) ∈ (appendBlockC p ct).temporal) ∧
    (∀ n ∈ processedNames ((ct.changes.filter (fun c => decide (c.height = ct.height + 1))).map
        (fun c => c.name)) (nodesAtC ct (ct.height + 1)),
      0 < nextUpdateOf p (changesOf ct.changes n) (ct.height + 1) →
      (nextUpdateOf p (changesOf ct.changes n) (ct.height + 1), n) ∈
        (appendBlockC p ct).temporal) := by
  constructor
  · intro c hc hh
    rw [appendBlockC_temporal, mem_foldl_insertPair]
    right
    rw [List.mem_append]
    left
    rw [List.mem_map]
    refine ⟨c.name, ?_, rfl⟩
    rw [mem_removeDuplicates, List.mem_map]
    exact ⟨c, List.mem_filter.mpr ⟨hc, by simp [hh]⟩, rfl⟩
  · intro n hn hpos
    rw [appendBlockC_temporal, mem_foldl_insertPair]
    right
    rw [List.mem_append]
    right
    rw [List.mem_filterMap]
    exact ⟨n, hn, by rw [if_pos hpos]⟩

/-- Witness for the amended C4: the claim added for height 1 is recorded in
the temporal index at height 1 by the first append. -/
theorem claimtrie_C4_amended_witness :
    ((1 : Int), nameA) ∈ (appendBlockC p0 (addClaimC (freshCT p0) nameA opA [9] 10)).temporal := by
  have h := (claimtrie_C4_amended p0 (addClaimC (freshCT p0) nameA opA [9] 10)).1
  exact h (Change.mk .addClaim nameA opA [9] 10 1) (by decide) (by decide)

end LbcdClaimTrie
